import Mathlib

/-!
A verification development for `build_mods.py` of MewgenicsModLoader.

The script merges "mod" overlays (directories and `.zip` archives) into an
output tree (`build_mods` / `copy_tree` / `extract_zip` / `clear_output`),
deploys the output tree's top-level entries into the game directory via a
symlink / junction / copy fallback chain (`symlink_to_game` /
`_try_create_dir_link`), and undeploys by removing a fixed allow-list of
top-level names from the game directory (`undeploy_from_game` /
`_remove_existing_path` / `_is_windows_reparse_point`).

Two shallow embeddings are used:

* a merge-side model (`Tree`): a directory tree is a list of directory paths
  plus an association list from relative file paths to byte contents; this is
  the state space for `copy_tree`, `extract_zip` and `build_mods`;
* a link-side model (`GFS`): the game directory is an association list from
  relative paths to nodes, where a node is a regular file, a regular
  directory, a symbolic link or a directory junction; this is the state space
  for `_remove_existing_path`, `_try_create_dir_link`, `symlink_to_game` and
  `undeploy_from_game`.

Filesystem paths are lists of name components, relative to the respective
root.  Platform-dependent outcomes (`os.name == "nt"`, whether `os.symlink`,
`mklink /J` or `shutil.copytree` succeeds) are passed in as explicit boolean
parameters.
-/

namespace MewgenicsML

/-- A filesystem path, as a list of name components relative to some root. -/
abbrev FPath := List String

/-- File contents, as a list of bytes. -/
abbrev Bytes := List Nat

/-- Left-biased choice on `Option`, used to state override semantics. -/
def oor (a b : Option Bytes) : Option Bytes :=
  match a with
  | some x => some x
  | none => b

/-- Lookup in an association list keyed by paths. -/
def flookup {β : Type} : List (FPath × β) → FPath → Option β
  | [], _ => none
  | e :: t, p => if e.1 = p then some e.2 else flookup t p

/-- Store a value at a key: overwrite the first binding of that key, or append
a new binding.  This models the effect of writing a file (`shutil.copy2`) or
creating a fresh node at a path on an association-list state. -/
def setEntry {β : Type} : List (FPath × β) → FPath → β → List (FPath × β)
  | [], p, b => [(p, b)]
  | e :: t, p, b => if e.1 = p then (p, b) :: t else e :: setEntry t p b

/-! ### Merge-side model

A directory tree is modelled by its `os.walk` enumeration: the list of
directory paths it contains (the walk roots, relative to the tree root, with
`[]` for the root itself) and an association list from relative file paths to
byte contents. -/

/-- A directory tree: its directories (relative paths, `[]` being the root)
and its files (relative path, contents).  This is both the shape of a source
tree as enumerated by `os.walk` and the state of the output directory. -/
structure Tree where
  dirs : List FPath
  files : List (FPath × Bytes)
deriving DecidableEq

/-- Add a directory if absent; models creating a directory that may already
exist (`exist_ok=True`). -/
def addDir (ds : List FPath) (p : FPath) : List FPath :=
  if p ∈ ds then ds else ds ++ [p]

/-- All ancestors of a path, itself included (`[]` first). -/
def ancestorsOf (p : FPath) : List FPath :=
  (List.range (p.length + 1)).map (fun i => p.take i)

/-- The effect of `Path.mkdir(parents=True, exist_ok=True)`: create the
directory and every ancestor, skipping those that already exist. -/
def mkdirParents (ds : List FPath) (p : FPath) : List FPath :=
  (ancestorsOf p).foldl addDir ds

/-- `copy_tree(src, dst)` from `build_mods.py` lines 119-141: walk `src`,
mirror each walked directory under `dst` with
`mkdir(parents=True, exist_ok=True)`, and copy every file with
`shutil.copy2`, overwriting existing destination files. -/
def copy_tree (src dst : Tree) : Tree :=
  { dirs := src.dirs.foldl mkdirParents dst.dirs,
    files := src.files.foldl (fun m e => setEntry m e.1 e.2) dst.files }

/-- The sequence of source files visited by the `os.walk` loop of
`copy_tree`, in walk order. -/
def walkFiles (src : Tree) : List FPath :=
  src.files.map Prod.fst

/-- Number of occurrences of a path in a visit sequence. -/
def countOcc : List FPath → FPath → Nat
  | [], _ => 0
  | a :: t, p => (if a = p then 1 else 0) + countOcc t p

/-- The scratch-extraction folder name used by `build_mods` (line 178). -/
def tmpName : String := "__temp__"

/-- `extract_zip(zip_path, temp_dir)` from lines 144-151, with
`temp_dir = output / "__temp__"`: every archive entry is placed under the
`__temp__` subdirectory of the output tree, overwriting colliding paths. -/
def extract_zip (zt : Tree) (out : Tree) : Tree :=
  { dirs := zt.dirs.foldl (fun ds d => addDir ds (tmpName :: d)) out.dirs,
    files := zt.files.foldl (fun m e => setEntry m (tmpName :: e.1) e.2) out.files }

/-- Strip the scratch-folder name from the front of a directory path;
`none` for paths not under the scratch folder. -/
def stripTmpDir (d : FPath) : Option FPath :=
  match d with
  | h :: q => if h = tmpName then some q else none
  | [] => none

/-- Strip the scratch-folder name from the front of a file entry's path;
`none` for entries not under the scratch folder. -/
def stripTmpFile (e : FPath × Bytes) : Option (FPath × Bytes) :=
  match e.1 with
  | h :: q => if h = tmpName then some (q, e.2) else none
  | [] => none

/-- The subtree of the output rooted at `__temp__`, re-rooted: what `os.walk`
enumerates when `copy_tree(temp_dir, output_dir)` walks the scratch folder. -/
def tempSub (out : Tree) : Tree :=
  { dirs := out.dirs.filterMap stripTmpDir,
    files := out.files.filterMap stripTmpFile }

/-- `shutil.rmtree(temp_dir)` (line 185): delete the scratch folder and
everything below it. -/
def rmTemp (out : Tree) : Tree :=
  { dirs := out.dirs.filter (fun d => decide (d.head? ≠ some tmpName)),
    files := out.files.filter (fun e => decide (e.1.head? ≠ some tmpName)) }

/-- The kind of an entry of the mods directory: a directory overlay, a
`.zip` overlay (with the tree its entries describe), or anything else
(silently skipped by `build_mods`). -/
inductive ModKind where
  | dirMod : Tree → ModKind
  | zipMod : Tree → ModKind
  | other : ModKind
deriving DecidableEq

/-- One entry of the mods directory: its name (the sort key of
`sorted(mods_dir.iterdir())`) and its kind. -/
structure Mod where
  name : String
  kind : ModKind
deriving DecidableEq

/-- The tree of content a mod carries (`other` entries carry nothing). -/
def payloadTree : ModKind → Tree
  | .dirMod t => t
  | .zipMod t => t
  | .other => { dirs := [], files := [] }

/-- The content a mod contributes at a relative file path. -/
def contribOf (m : Mod) (p : FPath) : Option Bytes :=
  flookup (payloadTree m.kind).files p

/-- `clear_output()` (lines 110-116): the output tree after deletion and
re-creation is the empty tree whose root directory exists. -/
def clear_output : Tree :=
  { dirs := [[]], files := [] }

/-- Processing of a single mod by the loop of `build_mods` (lines 169-185):
a directory overlay is merged with `copy_tree`; a `.zip` overlay is extracted
into the `__temp__` scratch folder (created with `mkdir(exist_ok=True)`),
the scratch contents are merged with `copy_tree`, and the scratch folder is
removed with `shutil.rmtree`; any other entry is skipped. -/
def processMod (out : Tree) (m : Mod) : Tree :=
  match m.kind with
  | .dirMod t => copy_tree t out
  | .zipMod zt =>
    let out1 : Tree := { out with dirs := addDir out.dirs [tmpName] }
    let out2 := extract_zip zt out1
    let out3 := copy_tree (tempSub out2) out2
    rmTemp out3
  | .other => out

/-- The sort order of `sorted(mods_dir.iterdir())`: ascending by name. -/
def modLE (a b : Mod) : Prop := a.name ≤ b.name

instance : DecidableRel modLE := fun a b =>
  inferInstanceAs (Decidable (a.name ≤ b.name))

instance : IsTotal Mod modLE := ⟨fun a b => le_total a.name b.name⟩

instance : IsTrans Mod modLE := ⟨fun _ _ _ h₁ h₂ => le_trans h₁ h₂⟩

/-- `build_mods()` (lines 154-185): clear the output tree, then fold the
mods over it in ascending sorted-name order. -/
def build_mods (ms : List Mod) : Tree :=
  (List.insertionSort modLE ms).foldl processMod clear_output

/-- Well-formedness of a tree as it sits on disk: no directory or file path
starts with the scratch name `__temp__`, and file paths are distinct. -/
def treeOK (t : Tree) : Prop :=
  (∀ d ∈ t.dirs, d.head? ≠ some tmpName) ∧
  (∀ e ∈ t.files, e.1.head? ≠ some tmpName) ∧
  (t.files.map Prod.fst).Nodup

instance (t : Tree) : Decidable (treeOK t) :=
  inferInstanceAs (Decidable (_ ∧ _ ∧ _))

/-- Well-formedness of a mod: its payload tree is well-formed. -/
def modOK (m : Mod) : Prop := treeOK (payloadTree m.kind)

instance (m : Mod) : Decidable (modOK m) :=
  inferInstanceAs (Decidable (treeOK _))

/-- Invariant of the output tree between mods: no path of it starts with the
scratch name. -/
def outOK (out : Tree) : Prop :=
  (∀ d ∈ out.dirs, d.head? ≠ some tmpName) ∧
  (∀ e ∈ out.files, e.1.head? ≠ some tmpName)

instance (t : Tree) : Decidable (outOK t) :=
  inferInstanceAs (Decidable (_ ∧ _))

/-! ### Link-side model

The game directory is modelled as an association list from relative paths to
nodes.  A node is a regular file, a regular directory, a symbolic link or a
directory junction; the two link kinds store their target path and their
removal must not touch entries stored at the target. -/

/-- A filesystem node as classified by the script: regular file, regular
directory, symbolic link, or directory junction (a Windows reparse point). -/
inductive Node where
  | file : Bytes → Node
  | dir : Node
  | symlink : FPath → Node
  | junction : FPath → Node
deriving DecidableEq

/-- The state of the game directory: entries at relative paths. -/
abbrev GFS := List (FPath × Node)

/-- Resolve the node at a path, following symlink and junction redirects,
with fuel to bound redirect chains (a chain that exhausts the fuel behaves
like a missing path, as `os.stat` loop errors make `Path.exists()` return
`False`). -/
def resolveNode (fs : GFS) : Nat → FPath → Option Node
  | 0, _ => none
  | fuel + 1, p =>
    match flookup fs p with
    | some (Node.symlink t) => resolveNode fs fuel t
    | some (Node.junction t) => resolveNode fs fuel t
    | r => r

/-- `Path.exists()`: true when the path resolves (through links) to a real
node; false for missing paths and broken links. -/
def existsAt (fs : GFS) (p : FPath) : Bool :=
  (resolveNode fs (fs.length + 1) p).isSome

/-- `Path.is_symlink()`: true exactly for symbolic-link nodes (junctions are
not symlinks), without following the link. -/
def isSymlinkAt (fs : GFS) (p : FPath) : Bool :=
  match flookup fs p with
  | some (Node.symlink _) => true
  | _ => false

/-- `Path.is_dir()`: follows links and reports whether a directory is
reached. -/
def isDirAt (fs : GFS) (p : FPath) : Bool :=
  match resolveNode fs (fs.length + 1) p with
  | some Node.dir => true
  | _ => false

/-- `_is_windows_reparse_point(path)` (lines 17-33): on Windows, true for
junctions and symlinks (reparse points), reading the node's own attributes;
false when the path has no node; always false off Windows. -/
def _is_windows_reparse_point (nt : Bool) (fs : GFS) (p : FPath) : Bool :=
  nt && (match flookup fs p with
         | some (Node.symlink _) => true
         | some (Node.junction _) => true
         | _ => false)

/-- `Path.unlink()` / `os.rmdir()` on a link node: remove exactly the entry
at the path, touching nothing else. -/
def removeEntry : GFS → FPath → GFS
  | [], _ => []
  | e :: t, p => if e.1 = p then removeEntry t p else e :: removeEntry t p

/-- `shutil.rmtree()`: remove the entry at the path and every entry below
it (link nodes below are removed as nodes; their targets are other paths
and stay). -/
def rmtreeG : GFS → FPath → GFS
  | [], _ => []
  | e :: t, p => if p.isPrefixOf e.1 then rmtreeG t p else e :: rmtreeG t p

/-- `_remove_existing_path(p)` (lines 36-53): no-op when no node of any
kind is present; unlink a symlink node; `os.rmdir` a junction; recursively
delete a real directory; unlink a file. -/
def _remove_existing_path (nt : Bool) (fs : GFS) (p : FPath) : GFS :=
  if existsAt fs p = false ∧ isSymlinkAt fs p = false ∧
      _is_windows_reparse_point nt fs p = false then fs
  else if isSymlinkAt fs p then removeEntry fs p
  else if isDirAt fs p then
    if _is_windows_reparse_point nt fs p then removeEntry fs p
    else rmtreeG fs p
  else removeEntry fs p

/-- `shutil.copytree(src_dir, dest)`: replicate every node of the subtree
rooted at `src` (the root directory node included) at the mirrored path
under `dest`.  The callers guarantee `dest` has no prior entries.  (That
`copytree` dereferences inner symlinks is not modelled: the trees copied
here are built from regular files and directories only, and the properties
proved below depend only on file and directory nodes.) -/
def copytreeInto (fs : GFS) (src dest : FPath) : GFS :=
  fs ++ fs.filterMap
    (fun e => if src.isPrefixOf e.1 then
        some (dest ++ e.1.drop src.length, e.2) else none)

/-- `_try_create_dir_link(src_dir, dest)` (lines 57-86).  The booleans give
the platform (`nt`: whether `os.name == "nt"`) and the environment-dependent
outcomes of each mechanism (`s`: `os.symlink` succeeds; `j`: `mklink /J`
succeeds; `c`: `shutil.copytree` succeeds).  On failure of `os.symlink` off
Windows the error propagates; on Windows the junction is tried, then the
copy; an error of the copy propagates. -/
def _try_create_dir_link (nt s j c : Bool) (fs : GFS) (src dest : FPath) :
    Except Unit (GFS × String) :=
  if s then Except.ok (setEntry fs dest (Node.symlink src), "symlink")
  else if nt = false then Except.error ()
  else if j then Except.ok (setEntry fs dest (Node.junction src), "junction")
  else if c then Except.ok (copytreeInto fs src dest, "copied")
  else Except.error ()

/-- The mechanisms attempted by `_try_create_dir_link`, in the order the
control flow of lines 68-86 tries them: a prefix of
`symlink`, `junction`, `copied` (the copy outcome does not change what is
attempted, only whether the last attempt succeeds). -/
def linkAttempts (nt s j : Bool) : List String :=
  "symlink" ::
    (if s then []
     else if nt = false then []
     else "junction" :: (if j then [] else ["copied"]))

/-- Read the file at relative path `r` through the top-level entry `top`:
through a symlink or junction at `top` the file is read at the link's
target, through a real directory it is read in place. -/
def readRel (fs : GFS) (top : FPath) (r : FPath) : Option Bytes :=
  match flookup fs top with
  | some (Node.symlink t) =>
    match flookup fs (t ++ r) with
    | some (Node.file b) => some b
    | _ => none
  | some (Node.junction t) =>
    match flookup fs (t ++ r) with
    | some (Node.file b) => some b
    | _ => none
  | some Node.dir =>
    match flookup fs (top ++ r) with
    | some (Node.file b) => some b
    | _ => none
  | _ => none

/-- A top-level entry of the built output tree, as `output_dir.iterdir()`
enumerates it for the deploy step: a directory, or a file with contents. -/
inductive OutEntry where
  | dirE : OutEntry
  | fileE : Bytes → OutEntry
deriving DecidableEq

/-- One iteration of the deploy loop of `symlink_to_game` (lines 98-107):
clear whatever sits at `game_dir/<name>`, then link a directory entry with
`_try_create_dir_link` or copy a file entry with `shutil.copy2`.  The
boolean records whether the iteration succeeded (a raised link failure
aborts the loop). -/
def deployStep (nt s j c : Bool) (outPath : FPath) (fs : GFS)
    (it : String × OutEntry) : GFS × Bool :=
  let fs1 := _remove_existing_path nt fs [it.1]
  match it.2 with
  | OutEntry.dirE =>
    match _try_create_dir_link nt s j c fs1 (outPath ++ [it.1]) [it.1] with
    | Except.ok (fs2, _) => (fs2, true)
    | Except.error _ => (fs1, false)
  | OutEntry.fileE b => (setEntry fs1 [it.1] (Node.file b), true)

/-- `symlink_to_game()` (lines 89-107): deploy each top-level entry of the
output tree into the game directory, stopping at the first raised failure.
`items` is the `output_dir.iterdir()` enumeration (name and kind), `outPath`
the path of the output directory relative to the game directory, and the
result's boolean tells whether the whole loop ran without a raise. -/
def symlink_to_game (nt s j c : Bool) (outPath : FPath)
    (items : List (String × OutEntry)) (fs : GFS) : GFS × Bool :=
  items.foldl
    (fun st it => if st.2 then deployStep nt s j c outPath st.1 it else st)
    (fs, true)

/-- `MANAGED_TOP_FOLDERS` (line 15): the only top-level folders managed by
the tool. -/
def MANAGED_TOP_FOLDERS : List String :=
  ["audio", "data", "levels", "shaders", "swfs", "textures"]

/-- One iteration of the undeploy loop (lines 200-211): if anything exists
(or a symlink, broken included, sits) at `game_dir/<item>`, remove it and
record that something was removed. -/
def undeployStep (nt : Bool) (st : GFS × Bool) (item : String) : GFS × Bool :=
  if existsAt st.1 [item] || isSymlinkAt st.1 [item] then
    (_remove_existing_path nt st.1 [item], true)
  else st

/-- `undeploy_from_game()` (lines 187-215): return immediately when the
output directory does not exist; otherwise walk the managed-name allow-list
and remove each deployed counterpart, reporting whether anything was
removed. -/
def undeploy_from_game (nt : Bool) (outputExists : Bool) (fs : GFS) :
    GFS × Bool :=
  match outputExists with
  | false => (fs, false)
  | true => MANAGED_TOP_FOLDERS.foldl (undeployStep nt) (fs, false)

/-! ### Basic association-list lemmas -/

theorem flookup_setEntry {β : Type} (l : List (FPath × β)) (p : FPath) (b : β)
    (q : FPath) :
    flookup (setEntry l p b) q = if q = p then some b else flookup l q := by
  induction l with
  | nil =>
    by_cases h : q = p
    · subst h; simp [setEntry, flookup]
    · have h' : ¬ p = q := fun hh => h hh.symm
      simp [setEntry, flookup, h, h']
  | cons e t ih =>
    by_cases hep : e.1 = p
    · by_cases hqp : q = p
      · subst hqp; simp [setEntry, hep, flookup]
      · have h' : ¬ p = q := fun hh => hqp hh.symm
        have h'' : ¬ e.1 = q := fun hh => hqp (by rw [← hh, hep])
        simp [setEntry, hep, flookup, hqp, h', h'']
    · by_cases heq : e.1 = q
      · have hqp : ¬ q = p := fun h => hep (heq.trans h)
        simp [setEntry, hep, flookup, heq, hqp]
      · simp [setEntry, hep, flookup, heq, ih]

theorem flookup_append {β : Type} (l₁ l₂ : List (FPath × β)) (p : FPath) :
    flookup (l₁ ++ l₂) p =
      (match flookup l₁ p with
       | some x => some x
       | none => flookup l₂ p) := by
  induction l₁ with
  | nil => simp [flookup]
  | cons e t ih =>
    by_cases h : e.1 = p <;> simp [flookup, h, ih]

theorem flookup_none_of_keys {β : Type} (l : List (FPath × β)) (p : FPath)
    (h : ∀ e ∈ l, e.1 ≠ p) : flookup l p = none := by
  induction l with
  | nil => rfl
  | cons e t ih =>
    have he : e.1 ≠ p := h e (List.mem_cons_self e t)
    simp [flookup, he]
    exact ih (fun e' he' => h e' (List.mem_cons_of_mem e he'))

theorem setEntry_eq_append {β : Type} (l : List (FPath × β)) (p : FPath) (b : β)
    (h : ∀ e ∈ l, e.1 ≠ p) : setEntry l p b = l ++ [(p, b)] := by
  induction l with
  | nil => rfl
  | cons e t ih =>
    have he : e.1 ≠ p := h e (List.mem_cons_self e t)
    simp [setEntry, he]
    exact ih (fun e' he' => h e' (List.mem_cons_of_mem e he'))

theorem mem_setEntry {β : Type} (l : List (FPath × β)) (p : FPath) (b : β)
    (e : FPath × β) (he : e ∈ setEntry l p b) :
    e.1 = p ∨ ∃ e' ∈ l, e.1 = e'.1 := by
  induction l with
  | nil =>
    simp [setEntry] at he
    left; rw [he]
  | cons a t ih =>
    by_cases hap : a.1 = p
    · simp [setEntry, hap] at he
      rcases he with he | he
      · left; rw [he]
      · right; exact ⟨e, List.mem_cons_of_mem a he, rfl⟩
    · simp [setEntry, hap] at he
      rcases he with he | he
      · right; exact ⟨a, List.mem_cons_self a t, by rw [he]⟩
      · rcases ih he with h | ⟨e', he', h⟩
        · left; exact h
        · right; exact ⟨e', List.mem_cons_of_mem a he', h⟩

theorem flookup_of_nodup_mem {β : Type} (l : List (FPath × β))
    (hnd : (l.map Prod.fst).Nodup) (e : FPath × β) (he : e ∈ l) :
    flookup l e.1 = some e.2 := by
  induction l with
  | nil => cases he
  | cons a t ih =>
    have hnd' : a.1 ∉ t.map Prod.fst ∧ (t.map Prod.fst).Nodup := by
      rw [List.map_cons, List.nodup_cons] at hnd
      exact hnd
    rcases List.mem_cons.mp he with rfl | he'
    · simp [flookup]
    · have hne : a.1 ≠ e.1 := by
        intro h
        have hm : e.1 ∈ t.map Prod.fst := List.mem_map_of_mem Prod.fst he'
        rw [← h] at hm
        exact hnd'.1 hm
      simp [flookup, hne]
      exact ih hnd'.2 he'

/-! ### Lemmas about the merge-side operations -/

theorem flookup_copyFold (src : List (FPath × Bytes))
    (hnd : (src.map Prod.fst).Nodup) (dst : List (FPath × Bytes)) (p : FPath) :
    flookup (src.foldl (fun m e => setEntry m e.1 e.2) dst) p =
      oor (flookup src p) (flookup dst p) := by
  induction src generalizing dst with
  | nil => simp [flookup, oor]
  | cons e t ih =>
    have hnd' : e.1 ∉ t.map Prod.fst ∧ (t.map Prod.fst).Nodup := by
      rw [List.map_cons, List.nodup_cons] at hnd
      exact hnd
    rw [List.foldl_cons, ih hnd'.2]
    by_cases hp : p = e.1
    · have ht : flookup t e.1 = none := by
        apply flookup_none_of_keys
        intro e' he' h
        exact hnd'.1 (h ▸ List.mem_map_of_mem Prod.fst he')
      rw [hp]
      simp [flookup, ht, flookup_setEntry, oor]
    · have h' : ¬ e.1 = p := fun hh => hp hh.symm
      simp [flookup, h', flookup_setEntry, hp]

theorem mem_copyFold (src : List (FPath × Bytes)) (dst : List (FPath × Bytes))
    (e : FPath × Bytes) (he : e ∈ src.foldl (fun m a => setEntry m a.1 a.2) dst) :
    (∃ e' ∈ src, e.1 = e'.1) ∨ (∃ e' ∈ dst, e.1 = e'.1) := by
  induction src generalizing dst with
  | nil => right; exact ⟨e, he, rfl⟩
  | cons a t ih =>
    rw [List.foldl_cons] at he
    rcases ih (setEntry dst a.1 a.2) he with ⟨e', he', h⟩ | hdst
    · left; exact ⟨e', List.mem_cons_of_mem a he', h⟩
    · rcases hdst with ⟨e', he', h⟩
      rcases mem_setEntry dst a.1 a.2 e' he' with h1 | ⟨e'', he'', h2⟩
      · left; exact ⟨a, List.mem_cons_self a t, h.trans h1⟩
      · right; exact ⟨e'', he'', h.trans h2⟩

theorem extractFold_eq_append (l : List (FPath × Bytes))
    (hnd : (l.map Prod.fst).Nodup) (m : List (FPath × Bytes))
    (h : ∀ e ∈ l, ∀ e' ∈ m, e'.1 ≠ tmpName :: e.1) :
    l.foldl (fun acc e => setEntry acc (tmpName :: e.1) e.2) m =
      m ++ l.map (fun e => (tmpName :: e.1, e.2)) := by
  induction l generalizing m with
  | nil => simp
  | cons a t ih =>
    have hnd' : a.1 ∉ t.map Prod.fst ∧ (t.map Prod.fst).Nodup := by
      rw [List.map_cons, List.nodup_cons] at hnd
      exact hnd
    rw [List.foldl_cons]
    rw [setEntry_eq_append m (tmpName :: a.1) a.2
      (fun e' he' => h a (List.mem_cons_self a t) e' he')]
    rw [ih hnd'.2]
    · simp
    · intro e he e' he'
      rcases List.mem_append.mp he' with hm | hsing
      · exact h e (List.mem_cons_of_mem a he) e' hm
      · have he'' : e' = (tmpName :: a.1, a.2) := by simpa using hsing
        rw [he'']
        intro hc
        have : a.1 = e.1 := by
          injection hc
        exact hnd'.1 (this ▸ List.mem_map_of_mem Prod.fst he)

theorem flookup_tagged (l : List (FPath × Bytes)) (q : FPath) :
    flookup (l.map (fun e => (tmpName :: e.1, e.2))) (tmpName :: q) =
      flookup l q := by
  induction l with
  | nil => rfl
  | cons a t ih =>
    by_cases h : a.1 = q
    · simp [flookup, h]
    · have h' : ¬ (tmpName :: a.1 = tmpName :: q) := by
        intro hc; exact h (by injection hc)
      simp [flookup, h, h', ih]

theorem flookup_tagged_none (l : List (FPath × Bytes)) (p : FPath)
    (hp : p.head? ≠ some tmpName) :
    flookup (l.map (fun e => (tmpName :: e.1, e.2))) p = none := by
  apply flookup_none_of_keys
  intro e he hc
  rcases List.mem_map.mp he with ⟨a, _, ha⟩
  rw [← ha] at hc
  rw [← hc] at hp
  simp at hp

theorem flookup_filter_of_ne (l : List (FPath × Bytes)) (f : FPath × Bytes → Bool)
    (p : FPath) (h : ∀ e ∈ l, f e = false → e.1 ≠ p) :
    flookup (l.filter f) p = flookup l p := by
  induction l with
  | nil => rfl
  | cons a t ih =>
    have hrec := ih (fun e he hf => h e (List.mem_cons_of_mem a he) hf)
    cases hf : f a with
    | true => by_cases hap : a.1 = p <;> simp [List.filter, hf, flookup, hap, hrec]
    | false =>
      have hap : a.1 ≠ p := h a (List.mem_cons_self a t) hf
      simp [List.filter, hf, flookup, hap, hrec]

theorem mem_foldl_addDir (l : List FPath) (ds : List FPath) (d : FPath)
    (hd : d ∈ l.foldl addDir ds) : d ∈ ds ∨ d ∈ l := by
  induction l generalizing ds with
  | nil => left; exact hd
  | cons a t ih =>
    rw [List.foldl_cons] at hd
    rcases ih (addDir ds a) hd with h | h
    · unfold addDir at h
      by_cases ha : a ∈ ds
      · rw [if_pos ha] at h; left; exact h
      · rw [if_neg ha] at h
        rcases List.mem_append.mp h with h1 | h1
        · left; exact h1
        · right
          have : d = a := by simpa using h1
          simp [this]
    · right; exact List.mem_cons_of_mem a h

theorem mem_mkdirParents (ds : List FPath) (p : FPath) (d : FPath)
    (hd : d ∈ mkdirParents ds p) : d ∈ ds ∨ d ∈ ancestorsOf p :=
  mem_foldl_addDir (ancestorsOf p) ds d hd

theorem mem_foldl_mkdirParents (l : List FPath) (ds : List FPath) (d : FPath)
    (hd : d ∈ l.foldl mkdirParents ds) :
    d ∈ ds ∨ ∃ sd ∈ l, d ∈ ancestorsOf sd := by
  induction l generalizing ds with
  | nil => left; exact hd
  | cons a t ih =>
    rw [List.foldl_cons] at hd
    rcases ih (mkdirParents ds a) hd with h | ⟨sd, hsd, h⟩
    · rcases mem_mkdirParents ds a d h with h1 | h1
      · left; exact h1
      · right; exact ⟨a, List.mem_cons_self a t, h1⟩
    · right; exact ⟨sd, List.mem_cons_of_mem a hsd, h⟩

theorem head?_mem_ancestorsOf (sd d : FPath) (hd : d ∈ ancestorsOf sd) :
    d.head? = none ∨ d.head? = sd.head? := by
  obtain ⟨i, _, rfl⟩ := List.mem_map.mp hd
  cases i with
  | zero => left; simp
  | succ n =>
    cases sd with
    | nil => left; simp
    | cons a t => right; simp

/-- The single-mod step changes the output's content at a path to the mod's
contribution there when the mod has one, and keeps the previous content
otherwise. -/
theorem flookup_processMod (out : Tree) (m : Mod) (hout : outOK out)
    (hm : modOK m) (p : FPath) :
    flookup (processMod out m).files p =
      oor (contribOf m p) (flookup out.files p) := by
  match hk : m.kind with
  | .dirMod t =>
    have hnd : (t.files.map Prod.fst).Nodup := by
      have := hm; rw [modOK, hk] at this; exact this.2.2
    simp only [processMod, hk, copy_tree, contribOf, payloadTree]
    exact flookup_copyFold t.files hnd out.files p
  | .zipMod zt =>
    have hmOK : treeOK zt := by have := hm; rwa [modOK, hk] at this
    have hnd : (zt.files.map Prod.fst).Nodup := hmOK.2.2
    simp only [processMod, hk, contribOf, payloadTree]
    -- the extraction appends the tagged archive entries to the output files
    have hext : (extract_zip zt { out with dirs := addDir out.dirs [tmpName] }).files =
        out.files ++ zt.files.map (fun e => (tmpName :: e.1, e.2)) := by
      simp only [extract_zip]
      exact extractFold_eq_append zt.files hnd out.files
        (fun e he e' he' hc => hout.2 e' he' (by rw [hc]; rfl))
    -- the scratch subtree re-rooted is exactly the archive's tree of files
    have htemp : (tempSub (extract_zip zt { out with dirs := addDir out.dirs [tmpName] })).files
        = zt.files := by
      simp only [tempSub, hext, List.filterMap_append]
      have h1 : out.files.filterMap stripTmpFile = [] := by
        rw [List.filterMap_eq_nil_iff]
        intro e he
        cases hc : e.1 with
        | nil => simp [stripTmpFile, hc]
        | cons h q =>
          have hne := hout.2 e he
          rw [hc] at hne
          simp at hne
          simp [stripTmpFile, hc, hne]
      have h2 : (zt.files.map (fun e => (tmpName :: e.1, e.2))).filterMap
          stripTmpFile = zt.files := by
        induction zt.files with
        | nil => rfl
        | cons a t ih => simp [List.filterMap_cons, stripTmpFile, ih]
      rw [h1, h2, List.nil_append]
    by_cases hp : p.head? = some tmpName
    · -- at a scratch path: the mod contributes nothing, the output held
      -- nothing, and the final removal leaves nothing
      have hz : flookup zt.files p = none := by
        apply flookup_none_of_keys
        intro e he hc
        exact hmOK.2.1 e he (by rw [hc]; exact hp)
      have ho : flookup out.files p = none := by
        apply flookup_none_of_keys
        intro e he hc
        exact hout.2 e he (by rw [hc]; exact hp)
      have hfin : flookup (rmTemp (copy_tree
          (tempSub (extract_zip zt { out with dirs := addDir out.dirs [tmpName] }))
          (extract_zip zt { out with dirs := addDir out.dirs [tmpName] }))).files p
          = none := by
        apply flookup_none_of_keys
        intro e he hc
        have := List.mem_filter.mp he
        rw [decide_eq_true_eq] at this
        exact this.2 (by rw [hc]; exact hp)
      rw [hfin, hz, ho]
      rfl
    · have hstep : flookup (rmTemp (copy_tree
          (tempSub (extract_zip zt { out with dirs := addDir out.dirs [tmpName] }))
          (extract_zip zt { out with dirs := addDir out.dirs [tmpName] }))).files p
          = flookup (copy_tree
          (tempSub (extract_zip zt { out with dirs := addDir out.dirs [tmpName] }))
          (extract_zip zt { out with dirs := addDir out.dirs [tmpName] })).files p := by
        apply flookup_filter_of_ne
        intro e _ hf hc
        rw [decide_eq_false_iff_not] at hf
        simp at hf
        exact hp (by rw [← hc]; exact hf)
      rw [hstep]
      simp only [copy_tree, htemp]
      rw [flookup_copyFold zt.files hnd _ p, hext, flookup_append]
      have htag : flookup (zt.files.map (fun e => (tmpName :: e.1, e.2))) p = none :=
        flookup_tagged_none zt.files p hp
      cases hof : flookup out.files p <;> simp [htag, oor]
  | .other =>
    simp only [processMod, hk, contribOf, payloadTree]
    simp [flookup, oor]

/-- The output-tree invariant (no scratch-named paths) is preserved by
processing one mod. -/
theorem outOK_processMod (out : Tree) (m : Mod) (hout : outOK out)
    (hm : modOK m) : outOK (processMod out m) := by
  match hk : m.kind with
  | .dirMod t =>
    have hmOK : treeOK t := by rwa [modOK, hk] at hm
    constructor
    · intro d hd
      simp only [processMod, hk, copy_tree] at hd
      rcases mem_foldl_mkdirParents t.dirs out.dirs d hd with h | ⟨sd, hsd, h⟩
      · exact hout.1 d h
      · rcases head?_mem_ancestorsOf sd d h with h1 | h1
        · rw [h1]; simp
        · rw [h1]; exact hmOK.1 sd hsd
    · intro e he
      simp only [processMod, hk, copy_tree] at he
      rcases mem_copyFold t.files out.files e he with ⟨e', he', h⟩ | ⟨e', he', h⟩
      · rw [h]; exact hmOK.2.1 e' he'
      · rw [h]; exact hout.2 e' he'
  | .zipMod zt =>
    constructor
    · intro d hd
      simp only [processMod, hk, rmTemp] at hd
      have := List.mem_filter.mp hd
      rw [decide_eq_true_eq] at this
      exact this.2
    · intro e he
      simp only [processMod, hk, rmTemp] at he
      have := List.mem_filter.mp he
      rw [decide_eq_true_eq] at this
      exact this.2
  | .other =>
    simpa only [processMod, hk] using hout

theorem outOK_buildFold (l : List Mod) (hl : ∀ m ∈ l, modOK m) (out : Tree)
    (hout : outOK out) : outOK (l.foldl processMod out) := by
  induction l generalizing out with
  | nil => exact hout
  | cons a t ih =>
    rw [List.foldl_cons]
    exact ih (fun m hm => hl m (List.mem_cons_of_mem a hm))
      (processMod out a) (outOK_processMod out a hout (hl a (List.mem_cons_self a t)))

theorem flookup_buildFold (l : List Mod) (hl : ∀ m ∈ l, modOK m) (out : Tree)
    (hout : outOK out) (p : FPath) :
    flookup (l.foldl processMod out).files p =
      l.foldl (fun acc m => oor (contribOf m p) acc) (flookup out.files p) := by
  induction l generalizing out with
  | nil => rfl
  | cons a t ih =>
    rw [List.foldl_cons, List.foldl_cons]
    rw [ih (fun m hm => hl m (List.mem_cons_of_mem a hm)) (processMod out a)
      (outOK_processMod out a hout (hl a (List.mem_cons_self a t)))]
    rw [flookup_processMod out a hout (hl a (List.mem_cons_self a t)) p]

theorem foldl_oor_of_none (t : List Mod) (p : FPath)
    (h : ∀ m ∈ t, contribOf m p = none) (acc : Option Bytes) :
    t.foldl (fun acc m => oor (contribOf m p) acc) acc = acc := by
  induction t generalizing acc with
  | nil => rfl
  | cons a l ih =>
    rw [List.foldl_cons, h a (List.mem_cons_self a l)]
    exact ih (fun m hm => h m (List.mem_cons_of_mem a hm)) acc

theorem lastWinsFold (l : List Mod) (hs : List.Sorted modLE l)
    (hnames : (l.map Mod.name).Nodup) (p : FPath) (m : Mod) (hm : m ∈ l)
    (b : Bytes) (hc : contribOf m p = some b)
    (hlast : ∀ m' ∈ l, contribOf m' p ≠ none → m'.name ≤ m.name)
    (acc : Option Bytes) :
    l.foldl (fun acc m' => oor (contribOf m' p) acc) acc = some b := by
  induction l generalizing acc with
  | nil => cases hm
  | cons a t ih =>
    have hnd' : a.name ∉ t.map Mod.name ∧ (t.map Mod.name).Nodup := by
      rw [List.map_cons, List.nodup_cons] at hnames
      exact hnames
    rcases List.mem_cons.mp hm with rfl | hmt
    · -- the maximal contributor is the head: nothing after it contributes
      have hnone : ∀ m' ∈ t, contribOf m' p = none := by
        intro m' hm'
        by_contra hne
        have h1 : m'.name ≤ m.name :=
          hlast m' (List.mem_cons_of_mem m hm') hne
        have h2 : modLE m m' := (List.sorted_cons.mp hs).1 m' hm'
        have heq : m'.name = m.name := le_antisymm h1 h2
        exact hnd'.1 (heq ▸ List.mem_map_of_mem Mod.name hm')
      rw [List.foldl_cons, hc]
      exact foldl_oor_of_none t p hnone (oor (some b) acc)
    · rw [List.foldl_cons]
      exact ih (List.sorted_cons.mp hs).2 hnd'.2 hmt
        (fun m' hm' => hlast m' (List.mem_cons_of_mem a hm'))
        (oor (contribOf a p) acc)

theorem flookup_temp_none_of_outOK (t : Tree) (h : outOK t) (q : FPath) :
    flookup t.files (tmpName :: q) = none := by
  apply flookup_none_of_keys
  intro e he hc
  have := h.2 e he
  rw [hc] at this
  simp at this

/-- C2 counterexample: an overlay may carry content under the reserved
scratch name `__temp__`, and then the claim as stated fails: the archive
overlay `B.zip` is the lexicographically-last (indeed only) overlay
containing the relative path `__temp__/x`, with bytes `[1]`, yet after the
build the Output Tree holds nothing at that path — the zip merge's scratch
cleanup (`shutil.rmtree(output/__temp__)`) destroys it. -/
theorem C2_counterexample :
    contribOf (Mod.mk "B.zip" (ModKind.zipMod
      (Tree.mk [] [(["__temp__", "x"], [1])]))) ["__temp__", "x"] = some [1] ∧
    flookup (build_mods [Mod.mk "B.zip" (ModKind.zipMod
      (Tree.mk [] [(["__temp__", "x"], [1])]))]).files ["__temp__", "x"] =
      none := by
  decide

/-- C2 (amended): for every collection of overlays (directory mods and
`.zip` mods) with distinct names, none of which carries a path under the
reserved scratch name `__temp__`, the built Output Tree's content at a
relative file path equals the content contributed by the
lexicographically-last overlay (by name) that contains that path: overlays
are processed in ascending sorted-name order and later ones overwrite
earlier ones at file-path granularity. -/
theorem C2_last_overlay_wins (ms : List Mod) (hok : ∀ m ∈ ms, modOK m)
    (hnames : (ms.map Mod.name).Nodup) (p : FPath) (m : Mod) (hm : m ∈ ms)
    (b : Bytes) (hc : contribOf m p = some b)
    (hlast : ∀ m' ∈ ms, contribOf m' p ≠ none → m'.name ≤ m.name) :
    flookup (build_mods ms).files p = some b := by
  have hperm := List.perm_insertionSort modLE ms
  have hok' : ∀ m' ∈ List.insertionSort modLE ms, modOK m' :=
    fun m' hm' => hok m' (hperm.mem_iff.mp hm')
  have houtOK : outOK clear_output := by decide
  rw [build_mods, flookup_buildFold _ hok' _ houtOK p]
  have hinit : flookup clear_output.files p = none := rfl
  rw [hinit]
  exact lastWinsFold (List.insertionSort modLE ms)
    (List.sorted_insertionSort modLE ms)
    (((hperm.map Mod.name).nodup_iff).mpr hnames) p m (hperm.mem_iff.mpr hm)
    b hc (fun m' hm' hne => hlast m' (hperm.mem_iff.mp hm') hne) none

/-- Witness for C2, on the spec's scenario: overlay `A` with
`data/x.txt = "1"` and overlay `B` with `data/x.txt = "2"`; the build holds
`"2"` (byte 50) at `data/x.txt`. -/
theorem C2_witness :
    flookup (build_mods
      [Mod.mk "A" (ModKind.dirMod (Tree.mk [[], ["data"]] [(["data", "x.txt"], [49])])),
       Mod.mk "B" (ModKind.dirMod (Tree.mk [[], ["data"]] [(["data", "x.txt"], [50])]))]).files
      ["data", "x.txt"] = some [50] :=
  C2_last_overlay_wins
    [Mod.mk "A" (ModKind.dirMod (Tree.mk [[], ["data"]] [(["data", "x.txt"], [49])])),
     Mod.mk "B" (ModKind.dirMod (Tree.mk [[], ["data"]] [(["data", "x.txt"], [50])]))]
    (by decide) (by decide) ["data", "x.txt"]
    (Mod.mk "B" (ModKind.dirMod (Tree.mk [[], ["data"]] [(["data", "x.txt"], [50])])))
    (by decide) [50] (by decide)
    (by
      intro m' hm' _
      rcases List.mem_cons.mp hm' with rfl | hm'
      · rw [String.le_iff_toList_le]; decide
      · rcases List.mem_cons.mp hm' with rfl | hm'
        · exact le_refl _
        · cases hm')

/-- C7 counterexample: the claim as stated fails on overlays that
themselves carry scratch-named paths.  A zip `C.zip` whose own entry is
`__temp__/x` has its merged bytes destroyed by the scratch cleanup rather
than preserved; and a plain directory overlay shipping `__temp__/x` leaves
a residual scratch-named path in the finished Output Tree. -/
theorem C7_counterexample :
    flookup (processMod clear_output (Mod.mk "C.zip" (ModKind.zipMod
      (Tree.mk [] [(["__temp__", "x"], [1])])))).files ["__temp__", "x"] =
      none ∧
    flookup (build_mods [Mod.mk "D" (ModKind.dirMod
      (Tree.mk [] [(["__temp__", "x"], [1])]))]).files ["__temp__", "x"] =
      some [1] := by
  decide

/-- C7 (amended): for every `.zip` overlay in a build whose overlays carry
no scratch-named paths: its entries are extracted into the `__temp__`
scratch subdirectory under the Output Tree; merging preserves exact bytes;
the scratch subdirectory (files and directories) is deleted right after the
merge; and after the whole build no scratch path remains in the Output
Tree. -/
theorem C7_zip_scratch_cleanup (ms : List Mod) (hok : ∀ m ∈ ms, modOK m)
    (zt : Tree) (nm : String) (hzip : Mod.mk nm (ModKind.zipMod zt) ∈ ms)
    (out : Tree) (hout : outOK out) :
    (∀ q, flookup (extract_zip zt { out with dirs := addDir out.dirs [tmpName] }).files
        (tmpName :: q) = flookup zt.files q) ∧
    (∀ q b, flookup zt.files q = some b →
      flookup (processMod out (Mod.mk nm (ModKind.zipMod zt))).files q = some b) ∧
    (∀ q, flookup (processMod out (Mod.mk nm (ModKind.zipMod zt))).files
        (tmpName :: q) = none) ∧
    (∀ d ∈ (processMod out (Mod.mk nm (ModKind.zipMod zt))).dirs,
        d.head? ≠ some tmpName) ∧
    (∀ q, flookup (build_mods ms).files (tmpName :: q) = none) ∧
    (∀ d ∈ (build_mods ms).dirs, d.head? ≠ some tmpName) := by
  have hmOK : modOK (Mod.mk nm (ModKind.zipMod zt)) := hok _ hzip
  have hzOK : treeOK zt := hmOK
  have hstep := outOK_processMod out (Mod.mk nm (ModKind.zipMod zt)) hout hmOK
  have hbuildOK : outOK (build_mods ms) := by
    have hperm := List.perm_insertionSort modLE ms
    exact outOK_buildFold (List.insertionSort modLE ms)
      (fun m' hm' => hok m' (hperm.mem_iff.mp hm')) clear_output (by decide)
  refine ⟨?_, ?_, ?_, hstep.1, ?_, hbuildOK.1⟩
  · intro q
    have hext : (extract_zip zt { out with dirs := addDir out.dirs [tmpName] }).files =
        out.files ++ zt.files.map (fun e => (tmpName :: e.1, e.2)) := by
      simp only [extract_zip]
      exact extractFold_eq_append zt.files hzOK.2.2 out.files
        (fun e he e' he' hc => hout.2 e' he' (by rw [hc]; rfl))
    rw [hext, flookup_append, flookup_temp_none_of_outOK out hout q,
      flookup_tagged]
  · intro q b hb
    rw [flookup_processMod out _ hout hmOK q]
    have : contribOf (Mod.mk nm (ModKind.zipMod zt)) q = some b := hb
    rw [this]
    rfl
  · intro q
    rw [flookup_processMod out _ hout hmOK (tmpName :: q)]
    have hz : contribOf (Mod.mk nm (ModKind.zipMod zt)) (tmpName :: q) = none := by
      apply flookup_none_of_keys
      intro e he hc
      exact hzOK.2.1 e he (by rw [hc]; rfl)
    rw [hz, flookup_temp_none_of_outOK out hout q]
    rfl
  · intro q
    exact flookup_temp_none_of_outOK (build_mods ms) hbuildOK q

/-- Witness for C7, on the spec's scenario: archive overlay `C.zip`
containing `levels/intro.lvl`; after extraction the bytes sit under
`__temp__`, after the merge they sit at `levels/intro.lvl` exactly, and the
finished build holds no file under `__temp__` at that path. -/
theorem C7_witness :
    flookup (processMod clear_output
        (Mod.mk "C.zip" (ModKind.zipMod
          (Tree.mk [["levels"]] [(["levels", "intro.lvl"], [7, 8])])))).files
      ["levels", "intro.lvl"] = some [7, 8] ∧
    flookup (build_mods
        [Mod.mk "C.zip" (ModKind.zipMod
          (Tree.mk [["levels"]] [(["levels", "intro.lvl"], [7, 8])]))]).files
      (tmpName :: ["levels", "intro.lvl"]) = none :=
  ⟨(C7_zip_scratch_cleanup
      [Mod.mk "C.zip" (ModKind.zipMod
        (Tree.mk [["levels"]] [(["levels", "intro.lvl"], [7, 8])]))]
      (by decide)
      (Tree.mk [["levels"]] [(["levels", "intro.lvl"], [7, 8])]) "C.zip"
      (by decide) clear_output (by decide)).2.1
      ["levels", "intro.lvl"] [7, 8] (by decide),
   (C7_zip_scratch_cleanup
      [Mod.mk "C.zip" (ModKind.zipMod
        (Tree.mk [["levels"]] [(["levels", "intro.lvl"], [7, 8])]))]
      (by decide)
      (Tree.mk [["levels"]] [(["levels", "intro.lvl"], [7, 8])]) "C.zip"
      (by decide) clear_output (by decide)).2.2.2.2.1
      ["levels", "intro.lvl"]⟩

theorem mem_addDir_of_mem (ds : List FPath) (p d : FPath) (hd : d ∈ ds) :
    d ∈ addDir ds p := by
  unfold addDir
  by_cases hp : p ∈ ds
  · rwa [if_pos hp]
  · rw [if_neg hp]; exact List.mem_append_left _ hd

theorem mem_addDir_self (ds : List FPath) (p : FPath) : p ∈ addDir ds p := by
  unfold addDir
  by_cases hp : p ∈ ds
  · rwa [if_pos hp]
  · rw [if_neg hp]; simp

theorem mem_foldl_addDir_of_mem (l : List FPath) (ds : List FPath) (d : FPath)
    (hd : d ∈ ds) : d ∈ l.foldl addDir ds := by
  induction l generalizing ds with
  | nil => exact hd
  | cons a t ih => exact ih (addDir ds a) (mem_addDir_of_mem ds a d hd)

theorem mem_foldl_addDir_self (l : List FPath) (ds : List FPath) (d : FPath)
    (hd : d ∈ l) : d ∈ l.foldl addDir ds := by
  induction l generalizing ds with
  | nil => cases hd
  | cons a t ih =>
    rcases List.mem_cons.mp hd with rfl | hd'
    · exact mem_foldl_addDir_of_mem t (addDir ds d) d (mem_addDir_self ds d)
    · exact ih (addDir ds a) hd'

theorem mem_mkdirParents_of_mem (ds : List FPath) (p d : FPath) (hd : d ∈ ds) :
    d ∈ mkdirParents ds p :=
  mem_foldl_addDir_of_mem (ancestorsOf p) ds d hd

theorem mem_ancestorsOf_self (p : FPath) : p ∈ ancestorsOf p := by
  unfold ancestorsOf
  refine List.mem_map.mpr ⟨p.length, ?_, by simp⟩
  simp

theorem mem_mkdirParents_ancestor (ds : List FPath) (p d : FPath)
    (hd : d ∈ ancestorsOf p) : d ∈ mkdirParents ds p :=
  mem_foldl_addDir_self (ancestorsOf p) ds d hd

theorem mem_foldl_mkdirParents_of_mem (l : List FPath) (ds : List FPath)
    (d : FPath) (hd : d ∈ ds) : d ∈ l.foldl mkdirParents ds := by
  induction l generalizing ds with
  | nil => exact hd
  | cons a t ih => exact ih (mkdirParents ds a) (mem_mkdirParents_of_mem ds a d hd)

theorem mem_foldl_mkdirParents_ancestor (l : List FPath) (ds : List FPath)
    (sd d : FPath) (hsd : sd ∈ l) (hd : d ∈ ancestorsOf sd) :
    d ∈ l.foldl mkdirParents ds := by
  induction l generalizing ds with
  | nil => cases hsd
  | cons a t ih =>
    rcases List.mem_cons.mp hsd with rfl | hsd'
    · exact mem_foldl_mkdirParents_of_mem t (mkdirParents ds sd) d
        (mem_mkdirParents_ancestor ds sd d hd)
    · exact ih (mkdirParents ds a) hsd'

theorem foldl_addDir_noop (l : List FPath) (ds : List FPath)
    (h : ∀ a ∈ l, a ∈ ds) : l.foldl addDir ds = ds := by
  induction l with
  | nil => rfl
  | cons a t ih =>
    rw [List.foldl_cons]
    have ha : addDir ds a = ds := by
      unfold addDir; rw [if_pos (h a (List.mem_cons_self a t))]
    rw [ha]
    exact ih (fun a' ha' => h a' (List.mem_cons_of_mem a ha'))

theorem foldl_mkdirParents_noop (l : List FPath) (ds : List FPath)
    (h : ∀ sd ∈ l, ∀ a ∈ ancestorsOf sd, a ∈ ds) :
    l.foldl mkdirParents ds = ds := by
  induction l with
  | nil => rfl
  | cons a t ih =>
    rw [List.foldl_cons]
    have ha : mkdirParents ds a = ds :=
      foldl_addDir_noop (ancestorsOf a) ds (h a (List.mem_cons_self a t))
    rw [ha]
    exact ih (fun sd hsd => h sd (List.mem_cons_of_mem a hsd))

theorem setEntry_self {β : Type} (m : List (FPath × β)) (p : FPath) (b : β)
    (h : flookup m p = some b) : setEntry m p b = m := by
  induction m with
  | nil => cases h
  | cons e t ih =>
    by_cases hep : e.1 = p
    · rw [flookup, if_pos hep] at h
      have hb : e.2 = b := Option.some.inj h
      simp only [setEntry]
      rw [if_pos hep, ← hep, ← hb]
    · rw [flookup, if_neg hep] at h
      simp [setEntry, hep, ih h]

theorem copyFold_noop (l : List (FPath × Bytes)) (m : List (FPath × Bytes))
    (h : ∀ e ∈ l, flookup m e.1 = some e.2) :
    l.foldl (fun acc e => setEntry acc e.1 e.2) m = m := by
  induction l with
  | nil => rfl
  | cons a t ih =>
    rw [List.foldl_cons, setEntry_self m a.1 a.2 (h a (List.mem_cons_self a t))]
    exact ih (fun e he => h e (List.mem_cons_of_mem a he))

theorem countOcc_eq_zero (l : List FPath) (p : FPath) (h : p ∉ l) :
    countOcc l p = 0 := by
  induction l with
  | nil => rfl
  | cons a t ih =>
    have ha : a ≠ p := fun hc => h (hc ▸ List.mem_cons_self a t)
    rw [countOcc, if_neg ha, ih (fun hc => h (List.mem_cons_of_mem a hc))]

theorem countOcc_eq_one (l : List FPath) (p : FPath) (hnd : l.Nodup)
    (h : p ∈ l) : countOcc l p = 1 := by
  induction l with
  | nil => cases h
  | cons a t ih =>
    have hnd' : a ∉ t ∧ t.Nodup := List.nodup_cons.mp hnd
    rcases List.mem_cons.mp h with rfl | ht
    · rw [countOcc, if_pos rfl, countOcc_eq_zero t p hnd'.1]
    · have ha : a ≠ p := fun hc => hnd'.1 (hc ▸ ht)
      rw [countOcc, if_neg ha, ih hnd'.2 ht]

theorem flookup_isSome_of_mem_keys {β : Type} (l : List (FPath × β)) (p : FPath)
    (h : p ∈ l.map Prod.fst) : (flookup l p).isSome := by
  induction l with
  | nil => cases h
  | cons e t ih =>
    rw [List.map_cons] at h
    by_cases hep : e.1 = p
    · simp only [flookup, if_pos hep, Option.isSome_some]
    · rcases List.mem_cons.mp h with h1 | h1
      · exact absurd h1.symm hep
      · simp only [flookup, if_neg hep]
        exact ih h1

/-- C9: for every source and destination tree, `copy_tree` is purely
additive/overwriting: the result at any path is the source's content when
the source has that file and the destination's content otherwise (so
colliding destination files are overwritten unconditionally and no file is
ever deleted); destination subdirectories are created as needed and
idempotently (a second identical copy is a no-op); and the walk visits
every file reachable under the source exactly once. -/
theorem C9_copy_tree_additive (src dst : Tree)
    (hnd : (src.files.map Prod.fst).Nodup) :
    (∀ p, flookup (copy_tree src dst).files p =
        oor (flookup src.files p) (flookup dst.files p)) ∧
    (∀ p, (flookup dst.files p).isSome →
        (flookup (copy_tree src dst).files p).isSome) ∧
    (∀ p b, flookup src.files p = some b →
        flookup (copy_tree src dst).files p = some b) ∧
    (∀ d ∈ src.dirs, d ∈ (copy_tree src dst).dirs) ∧
    (∀ d ∈ dst.dirs, d ∈ (copy_tree src dst).dirs) ∧
    (copy_tree src (copy_tree src dst) = copy_tree src dst) ∧
    (∀ p, countOcc (walkFiles src) p =
        if (flookup src.files p).isSome then 1 else 0) := by
  have hmain : ∀ p, flookup (copy_tree src dst).files p =
      oor (flookup src.files p) (flookup dst.files p) :=
    fun p => flookup_copyFold src.files hnd dst.files p
  refine ⟨hmain, ?_, ?_, ?_, ?_, ?_, ?_⟩
  · intro p hp
    rw [hmain p]
    cases hs : flookup src.files p
    · simpa [oor, hs] using hp
    · simp [oor, hs]
  · intro p b hb
    rw [hmain p, hb]; rfl
  · intro d hd
    exact mem_foldl_mkdirParents_ancestor src.dirs dst.dirs d d hd
      (mem_ancestorsOf_self d)
  · intro d hd
    exact mem_foldl_mkdirParents_of_mem src.dirs dst.dirs d hd
  · show Tree.mk _ _ = Tree.mk _ _
    congr 1
    · exact foldl_mkdirParents_noop src.dirs (copy_tree src dst).dirs
        (fun sd hsd a ha =>
          mem_foldl_mkdirParents_ancestor src.dirs dst.dirs sd a hsd ha)
    · exact copyFold_noop src.files (copy_tree src dst).files
        (fun e he => by
          rw [hmain e.1, flookup_of_nodup_mem src.files hnd e he]; rfl)
  · intro p
    by_cases hp : p ∈ src.files.map Prod.fst
    · rw [if_pos (flookup_isSome_of_mem_keys src.files p hp)]
      exact countOcc_eq_one (walkFiles src) p hnd hp
    · have hnone : flookup src.files p = none := by
        apply flookup_none_of_keys
        intro e he hc
        exact hp (hc ▸ List.mem_map_of_mem Prod.fst he)
      rw [hnone]
      exact countOcc_eq_zero (walkFiles src) p hp

/-- Witness for C9 at a concrete source and destination: the source has
`data/a` with bytes `[1]`, the destination already has `data/a = [9]`
(overwritten) and `data/b = [2]` (kept). -/
theorem C9_witness :
    flookup (copy_tree (Tree.mk [[], ["data"]] [(["data", "a"], [1])])
        (Tree.mk [[]] [(["data", "a"], [9]), (["data", "b"], [2])])).files
      ["data", "a"] = oor (some [1]) (some [9]) ∧
    (copy_tree (Tree.mk [[], ["data"]] [(["data", "a"], [1])])
        (copy_tree (Tree.mk [[], ["data"]] [(["data", "a"], [1])])
          (Tree.mk [[]] [(["data", "a"], [9]), (["data", "b"], [2])]))) =
      (copy_tree (Tree.mk [[], ["data"]] [(["data", "a"], [1])])
        (Tree.mk [[]] [(["data", "a"], [9]), (["data", "b"], [2])])) :=
  ⟨by
    have h := (C9_copy_tree_additive
      (Tree.mk [[], ["data"]] [(["data", "a"], [1])])
      (Tree.mk [[]] [(["data", "a"], [9]), (["data", "b"], [2])])
      (by decide)).1 ["data", "a"]
    rw [h]; decide,
   (C9_copy_tree_additive
      (Tree.mk [[], ["data"]] [(["data", "a"], [1])])
      (Tree.mk [[]] [(["data", "a"], [9]), (["data", "b"], [2])])
      (by decide)).2.2.2.2.2.1⟩

/-! ### Lemmas about the link-side operations -/

theorem flookup_removeEntry (fs : GFS) (p q : FPath) :
    flookup (removeEntry fs p) q = if q = p then none else flookup fs q := by
  induction fs with
  | nil => by_cases h : q = p <;> simp [removeEntry, flookup, h]
  | cons e t ih =>
    by_cases hep : e.1 = p
    · rw [removeEntry, if_pos hep, ih]
      by_cases hq : q = p
      · rw [if_pos hq, if_pos hq]
      · rw [if_neg hq, if_neg hq, flookup]
        have hne : ¬ e.1 = q := fun hc => hq (hc.symm.trans hep)
        rw [if_neg hne]
    · rw [removeEntry, if_neg hep, flookup]
      by_cases heq : e.1 = q
      · have hq : ¬ q = p := fun hc => hep (heq.trans hc)
        rw [if_pos heq, flookup, if_pos heq, if_neg hq]
      · rw [if_neg heq, ih, flookup, if_neg heq]

theorem isPrefixOf_refl (p : FPath) : p.isPrefixOf p = true := by
  induction p with
  | nil => rfl
  | cons a t ih => simp [List.isPrefixOf, ih]

theorem isPrefixOf_append (p r : FPath) : p.isPrefixOf (p ++ r) = true := by
  induction p with
  | nil => cases r <;> rfl
  | cons a t ih => simp [List.isPrefixOf, ih]

theorem isPrefixOf_singleton (n : String) (q : FPath)
    (h : q.head? ≠ some n) : ([n] : FPath).isPrefixOf q = false := by
  cases q with
  | nil => rfl
  | cons a t =>
    have hna : ¬ (n = a) := fun hc => h (by rw [hc]; rfl)
    simp [List.isPrefixOf, hna]

theorem eq_append_of_isPrefixOf (p : FPath) (q : FPath)
    (h : p.isPrefixOf q = true) : q = p ++ q.drop p.length := by
  induction p generalizing q with
  | nil => simp
  | cons a t ih =>
    cases q with
    | nil => cases h
    | cons b bs =>
      rw [List.isPrefixOf] at h
      have hab : a = b := by
        have h1 := (Bool.and_eq_true _ _).mp h
        exact eq_of_beq h1.1
      have hts := ((Bool.and_eq_true _ _).mp h).2
      calc b :: bs = a :: bs := by rw [hab]
        _ = a :: (t ++ bs.drop t.length) := by rw [← ih bs hts]
        _ = (a :: t) ++ (b :: bs).drop (a :: t).length := by simp

theorem mem_rmtreeG (fs : GFS) (p : FPath) (e : FPath × Node)
    (he : e ∈ rmtreeG fs p) : p.isPrefixOf e.1 = false ∧ e ∈ fs := by
  induction fs with
  | nil => cases he
  | cons a t ih =>
    by_cases hpre : p.isPrefixOf a.1
    · rw [rmtreeG, if_pos hpre] at he
      rcases ih he with ⟨h1, h2⟩
      exact ⟨h1, List.mem_cons_of_mem a h2⟩
    · rw [rmtreeG, if_neg hpre] at he
      rcases List.mem_cons.mp he with rfl | he'
      · exact ⟨Bool.eq_false_iff.mpr hpre, List.mem_cons_self e t⟩
      · rcases ih he' with ⟨h1, h2⟩
        exact ⟨h1, List.mem_cons_of_mem a h2⟩

theorem flookup_rmtreeG_of_not_pre (fs : GFS) (p q : FPath)
    (h : p.isPrefixOf q = false) :
    flookup (rmtreeG fs p) q = flookup fs q := by
  induction fs with
  | nil => rfl
  | cons e t ih =>
    by_cases hpre : p.isPrefixOf e.1
    · have hne : ¬ e.1 = q := by
        intro hc
        rw [hc] at hpre
        rw [hpre] at h
        cases h
      rw [rmtreeG, if_pos hpre, ih, flookup, if_neg hne]
    · rw [rmtreeG, if_neg hpre, flookup, flookup]
      by_cases heq : e.1 = q
      · rw [if_pos heq, if_pos heq]
      · rw [if_neg heq, if_neg heq, ih]

theorem flookup_rmtreeG_none (fs : GFS) (p q : FPath)
    (h : p.isPrefixOf q = true) : flookup (rmtreeG fs p) q = none := by
  apply flookup_none_of_keys
  intro e he hc
  rcases mem_rmtreeG fs p e he with ⟨h1, _⟩
  rw [hc, h] at h1
  cases h1

theorem flookup_some_mem {β : Type} (l : List (FPath × β)) (p : FPath) (b : β)
    (h : flookup l p = some b) : (p, b) ∈ l := by
  induction l with
  | nil => cases h
  | cons e t ih =>
    by_cases hep : e.1 = p
    · rw [flookup, if_pos hep] at h
      have hb : e.2 = b := Option.some.inj h
      refine List.mem_cons.mpr (Or.inl ?_)
      rcases e with ⟨e1, e2⟩
      cases hep
      cases hb
      rfl
    · rw [flookup, if_neg hep] at h
      exact List.mem_cons_of_mem e (ih h)

/-- The Safe Remover writes nothing outside the subtree rooted at the
removed path. -/
theorem remove_existing_frame (nt : Bool) (fs : GFS) (p q : FPath)
    (h : p.isPrefixOf q = false) :
    flookup (_remove_existing_path nt fs p) q = flookup fs q := by
  have hq : ¬ q = p := by
    intro hc
    rw [hc, isPrefixOf_refl p] at h
    cases h
  unfold _remove_existing_path
  split_ifs
  · rfl
  · rw [flookup_removeEntry, if_neg hq]
  · rw [flookup_removeEntry, if_neg hq]
  · exact flookup_rmtreeG_of_not_pre fs p q h
  · rw [flookup_removeEntry, if_neg hq]

/-- On a symlink node the Safe Remover reduces to unlinking the entry. -/
theorem remove_symlink_eq (nt : Bool) (fs : GFS) (p : FPath) (t : FPath)
    (ht : flookup fs p = some (Node.symlink t)) :
    _remove_existing_path nt fs p = removeEntry fs p := by
  have hsym : isSymlinkAt fs p = true := by
    unfold isSymlinkAt
    rw [ht]
  unfold _remove_existing_path
  rw [hsym]
  simp

/-- On a junction node, on Windows, the Safe Remover reduces to removing
the junction entry (via `os.rmdir` when the junction resolves to a
directory, via `unlink` otherwise); either way only the entry goes. -/
theorem remove_junction_eq (fs : GFS) (p : FPath) (t : FPath)
    (ht : flookup fs p = some (Node.junction t)) :
    _remove_existing_path true fs p = removeEntry fs p := by
  have hsym : isSymlinkAt fs p = false := by
    unfold isSymlinkAt
    rw [ht]
  have hrep : _is_windows_reparse_point true fs p = true := by
    unfold _is_windows_reparse_point
    rw [ht]
    rfl
  unfold _remove_existing_path
  rw [hsym, hrep]
  by_cases hd : isDirAt fs p = true
  · rw [hd]; simp
  · rw [Bool.eq_false_iff.mpr hd]; simp

theorem resolveNode_of_none (fs : GFS) (fuel : Nat) (p : FPath)
    (h : flookup fs p = none) : resolveNode fs (fuel + 1) p = none := by
  rw [resolveNode, h]

/-- With no node at the path, none of the probes of the Safe Remover's
guard fires. -/
theorem remove_none_noop (nt : Bool) (fs : GFS) (p : FPath)
    (h : flookup fs p = none) : _remove_existing_path nt fs p = fs := by
  have hex : existsAt fs p = false := by
    unfold existsAt
    rw [resolveNode_of_none fs fs.length p h]
    rfl
  have hsym : isSymlinkAt fs p = false := by
    unfold isSymlinkAt
    rw [h]
  have hrep : _is_windows_reparse_point nt fs p = false := by
    unfold _is_windows_reparse_point
    rw [h]
    simp
  unfold _remove_existing_path
  rw [hex, hsym, hrep]
  simp

theorem copytreeInto_frame (fs : GFS) (src dest q : FPath)
    (h : dest.isPrefixOf q = false) :
    flookup (copytreeInto fs src dest) q = flookup fs q := by
  unfold copytreeInto
  rw [flookup_append]
  have hsub : flookup (fs.filterMap
      (fun e => if src.isPrefixOf e.1 then
          some (dest ++ e.1.drop src.length, e.2) else none)) q = none := by
    apply flookup_none_of_keys
    intro e he hc
    rcases List.mem_filterMap.mp he with ⟨a, _, ha⟩
    by_cases hpre : src.isPrefixOf a.1
    · rw [if_pos hpre] at ha
      have he' : (dest ++ a.1.drop src.length, a.2) = e := Option.some.inj ha
      have he1 : e.1 = dest ++ a.1.drop src.length := by rw [← he']
      rw [hc] at he1
      rw [he1, isPrefixOf_append] at h
      cases h
    · rw [if_neg hpre] at ha
      cases ha
  rw [hsub]
  cases flookup fs q <;> rfl

theorem flookup_subMap (fs : GFS) (src dest : FPath) (r : FPath) :
    flookup (fs.filterMap
      (fun e => if src.isPrefixOf e.1 then
          some (dest ++ e.1.drop src.length, e.2) else none)) (dest ++ r) =
      flookup fs (src ++ r) := by
  induction fs with
  | nil => rfl
  | cons e t ih =>
    rw [List.filterMap_cons]
    by_cases hpre : src.isPrefixOf e.1
    · rw [if_pos hpre]
      have he : e.1 = src ++ e.1.drop src.length :=
        eq_append_of_isPrefixOf src e.1 hpre
      by_cases heq : e.1.drop src.length = r
      · have h1 : dest ++ e.1.drop src.length = dest ++ r := by rw [heq]
        have h2 : e.1 = src ++ r := by rw [he, heq]
        rw [flookup, if_pos h1, flookup, if_pos h2]
      · have h1 : ¬ (dest ++ e.1.drop src.length = dest ++ r) := by
          intro hc
          exact heq (List.append_cancel_left hc)
        have h2 : ¬ (e.1 = src ++ r) := by
          intro hc
          apply heq
          have := he.symm.trans hc
          exact List.append_cancel_left this
        rw [flookup, if_neg h1, flookup, if_neg h2, ih]
    · rw [if_neg hpre]
      have h2 : ¬ (e.1 = src ++ r) := by
        intro hc
        rw [hc, isPrefixOf_append] at hpre
        exact hpre rfl
      rw [flookup, if_neg h2, ih]

/-- C3 counterexample: at a broken symbolic link (a symlink node whose
target path holds no node) the Safe Remover is not a no-op: it removes the
link node, so the claim that paths holding broken links are left untouched
fails on this input. -/
theorem C3_counterexample :
    ([(["a"], Node.symlink ["b"])] : GFS) ≠ [] ∧
    flookup ([(["a"], Node.symlink ["b"])] : GFS) ["b"] = none ∧
    _remove_existing_path false [(["a"], Node.symlink ["b"])] ["a"] = [] := by
  decide

/-- C3 (amended): the Safe Remover is a silent no-op exactly at paths
holding no node of any kind (no file, directory, symlink or junction
entry); at a path holding a broken link it is not a no-op: the link node
itself is removed, silently, leaving every other path unchanged. -/
theorem C3_remove_missing_noop (nt : Bool) (fs : GFS) (p : FPath) :
    (flookup fs p = none → _remove_existing_path nt fs p = fs) ∧
    (∀ t, flookup fs p = some (Node.symlink t) → flookup fs t = none →
      flookup (_remove_existing_path nt fs p) p = none ∧
      ∀ q, q ≠ p → flookup (_remove_existing_path nt fs p) q = flookup fs q) := by
  constructor
  · exact remove_none_noop nt fs p
  · intro t ht _
    rw [remove_symlink_eq nt fs p t ht]
    constructor
    · rw [flookup_removeEntry, if_pos rfl]
    · intro q hq
      rw [flookup_removeEntry, if_neg hq]

/-- Witness for C3 (amended): the remover leaves a filesystem alone at a
missing path, and removes exactly the link node of a broken symlink. -/
theorem C3_witness :
    _remove_existing_path false [(["x"], Node.file [1])] ["y"] =
      [(["x"], Node.file [1])] ∧
    flookup (_remove_existing_path false [(["a"], Node.symlink ["b"])] ["a"])
      ["a"] = none :=
  ⟨(C3_remove_missing_noop false [(["x"], Node.file [1])] ["y"]).1 (by decide),
   ((C3_remove_missing_noop false [(["a"], Node.symlink ["b"])] ["a"]).2
      ["b"] (by decide) (by decide)).1⟩

/-- C4: applied to a symlink node (any platform) or to a junction node (on
Windows), the Safe Remover deletes only the link/reparse node itself: the
removal is exactly the unlinking of that one entry, every other path — the
link's target path and everything below it included — is left fully
intact, and the node at the path is gone. -/
theorem C4_remove_link_keeps_target (nt : Bool) (fs : GFS) (p : FPath)
    (h : (∃ t, flookup fs p = some (Node.symlink t)) ∨
         (nt = true ∧ ∃ t, flookup fs p = some (Node.junction t))) :
    _remove_existing_path nt fs p = removeEntry fs p ∧
    flookup (_remove_existing_path nt fs p) p = none ∧
    (∀ q, q ≠ p → flookup (_remove_existing_path nt fs p) q = flookup fs q) := by
  have heq : _remove_existing_path nt fs p = removeEntry fs p := by
    rcases h with ⟨t, ht⟩ | ⟨hnt, t, ht⟩
    · exact remove_symlink_eq nt fs p t ht
    · rw [hnt]
      exact remove_junction_eq fs p t ht
  refine ⟨heq, ?_, ?_⟩
  · rw [heq, flookup_removeEntry, if_pos rfl]
  · intro q hq
    rw [heq, flookup_removeEntry, if_neg hq]

/-- Witness for C4: removing the junction `data` (which aliases the output
subtree) leaves the aliased directory and the file inside it untouched. -/
theorem C4_witness :
    flookup (_remove_existing_path true
        [(["data"], Node.junction ["ml", "output", "data"]),
         (["ml", "output", "data"], Node.dir),
         (["ml", "output", "data", "f"], Node.file [3])] ["data"])
      ["ml", "output", "data", "f"] = some (Node.file [3]) ∧
    flookup (_remove_existing_path true
        [(["data"], Node.junction ["ml", "output", "data"]),
         (["ml", "output", "data"], Node.dir),
         (["ml", "output", "data", "f"], Node.file [3])] ["data"])
      ["data"] = none := by
  have h := C4_remove_link_keeps_target true
    [(["data"], Node.junction ["ml", "output", "data"]),
     (["ml", "output", "data"], Node.dir),
     (["ml", "output", "data", "f"], Node.file [3])] ["data"]
    (Or.inr ⟨rfl, ["ml", "output", "data"], by decide⟩)
  refine ⟨?_, h.2.1⟩
  rw [h.2.2 ["ml", "output", "data", "f"] (by decide)]
  decide

/-- C5: on the non-Windows platform family, where the symlink is the only
aliasing mechanism, a failure of symbolic-link creation propagates to the
caller: the Directory Linker raises, and the attempt list shows that no
junction and no copy fallback was ever attempted. -/
theorem C5_posix_failure_propagates (j c : Bool) (fs : GFS)
    (src dest : FPath) :
    _try_create_dir_link false false j c fs src dest = Except.error () ∧
    linkAttempts false false j = ["symlink"] :=
  ⟨rfl, rfl⟩

/-- C10: when the output tree does not exist, the Undeployer returns
immediately: the game directory is returned untouched and nothing is
reported removed — even if entries with managed names are deployed
there. -/
theorem C10_undeploy_without_output (nt : Bool) (fs : GFS) :
    undeploy_from_game nt false fs = (fs, false) :=
  rfl

/-- C6: for every source directory and fresh destination, the Directory
Linker tries symlink, junction, copy in that order — the attempt list is
always a prefix of `symlink, junction, copied` (it stops early on success
or on a propagated failure); on success the returned string names the
mechanism actually used: it is the last mechanism attempted, and the node
created at the destination matches it; and whichever mechanism succeeded,
every file of the source is reachable through the destination. -/
theorem C6_dir_link_fallback_chain (nt s j c : Bool) (fs : GFS)
    (src dest : FPath)
    (hfresh : ∀ e ∈ fs, dest.isPrefixOf e.1 = false)
    (hsrc : flookup fs src = some Node.dir) :
    (linkAttempts nt s j).isPrefixOf ["symlink", "junction", "copied"] = true ∧
    (∀ fs2 m, _try_create_dir_link nt s j c fs src dest = Except.ok (fs2, m) →
      (linkAttempts nt s j).getLast? = some m ∧
      ((m = "symlink" ∧ flookup fs2 dest = some (Node.symlink src)) ∨
       (m = "junction" ∧ flookup fs2 dest = some (Node.junction src)) ∨
       (m = "copied" ∧ flookup fs2 dest = some Node.dir)) ∧
      (∀ r b, flookup fs (src ++ r) = some (Node.file b) →
        readRel fs2 dest r = some b)) := by
  have hdest : ∀ r, flookup fs (dest ++ r) = none := by
    intro r
    apply flookup_none_of_keys
    intro e he hc
    have hf := hfresh e he
    rw [hc, isPrefixOf_append] at hf
    cases hf
  have hdest0 : flookup fs dest = none := by
    apply flookup_none_of_keys
    intro e he hc
    have hf := hfresh e he
    rw [hc, isPrefixOf_refl] at hf
    cases hf
  have hsrcne : ∀ r b, flookup fs (src ++ r) = some (Node.file b) →
      ¬ (src ++ r = dest) := by
    intro r b hb hc
    have hm := flookup_some_mem fs (src ++ r) (Node.file b) hb
    have hf := hfresh (src ++ r, Node.file b) hm
    rw [hc, isPrefixOf_refl] at hf
    cases hf
  constructor
  · cases s <;> cases nt <;> cases j <;> decide
  · intro fs2 m heq
    cases s with
    | true =>
      have h' : (Except.ok (setEntry fs dest (Node.symlink src), "symlink") :
          Except Unit (GFS × String)) = Except.ok (fs2, m) := heq
      injection h' with h''
      have h1 : setEntry fs dest (Node.symlink src) = fs2 :=
        congrArg Prod.fst h''
      have h2 : ("symlink" : String) = m := congrArg Prod.snd h''
      subst h1
      subst h2
      refine ⟨by cases nt <;> rfl, Or.inl ⟨rfl, ?_⟩, ?_⟩
      · rw [flookup_setEntry, if_pos rfl]
      · intro r b hb
        have ht : flookup (setEntry fs dest (Node.symlink src)) dest =
            some (Node.symlink src) := by
          rw [flookup_setEntry, if_pos rfl]
        have hf : flookup (setEntry fs dest (Node.symlink src)) (src ++ r) =
            some (Node.file b) := by
          rw [flookup_setEntry, if_neg (hsrcne r b hb)]
          exact hb
        simp only [readRel, ht, hf]
    | false =>
      cases nt with
      | false => exact Except.noConfusion heq
      | true =>
        cases j with
        | true =>
          have h' : (Except.ok (setEntry fs dest (Node.junction src), "junction") :
              Except Unit (GFS × String)) = Except.ok (fs2, m) := heq
          injection h' with h''
          have h1 : setEntry fs dest (Node.junction src) = fs2 :=
            congrArg Prod.fst h''
          have h2 : ("junction" : String) = m := congrArg Prod.snd h''
          subst h1
          subst h2
          refine ⟨rfl, Or.inr (Or.inl ⟨rfl, ?_⟩), ?_⟩
          · rw [flookup_setEntry, if_pos rfl]
          · intro r b hb
            have ht : flookup (setEntry fs dest (Node.junction src)) dest =
                some (Node.junction src) := by
              rw [flookup_setEntry, if_pos rfl]
            have hf : flookup (setEntry fs dest (Node.junction src)) (src ++ r) =
                some (Node.file b) := by
              rw [flookup_setEntry, if_neg (hsrcne r b hb)]
              exact hb
            simp only [readRel, ht, hf]
        | false =>
          cases c with
          | false => exact Except.noConfusion heq
          | true =>
            have h' : (Except.ok (copytreeInto fs src dest, "copied") :
                Except Unit (GFS × String)) = Except.ok (fs2, m) := heq
            injection h' with h''
            have h1 : copytreeInto fs src dest = fs2 := congrArg Prod.fst h''
            have h2 : ("copied" : String) = m := congrArg Prod.snd h''
            subst h1
            subst h2
            have hroot : flookup (copytreeInto fs src dest) dest =
                some Node.dir := by
              unfold copytreeInto
              rw [flookup_append, hdest0]
              have hsub := flookup_subMap fs src dest []
              rw [List.append_nil, List.append_nil] at hsub
              rw [hsub, hsrc]
            refine ⟨rfl, Or.inr (Or.inr ⟨rfl, hroot⟩), ?_⟩
            intro r b hb
            have hf : flookup (copytreeInto fs src dest) (dest ++ r) =
                some (Node.file b) := by
              unfold copytreeInto
              rw [flookup_append, hdest r, flookup_subMap fs src dest r]
              exact hb
            simp only [readRel, hroot, hf]

/-- Witness for C6, in the copy-fallback environment (Windows, symlink and
junction both failing): the linker reports `copied` as the last attempted
mechanism and the source's file is readable through the destination. -/
theorem C6_witness :
    readRel (copytreeInto
        [(["outp"], Node.dir), (["outp", "f"], Node.file [5])]
        ["outp"] ["data"]) ["data"] ["f"] = some [5] ∧
    (linkAttempts true false false).getLast? = some "copied" := by
  have h := (C6_dir_link_fallback_chain true false false true
    [(["outp"], Node.dir), (["outp", "f"], Node.file [5])]
    ["outp"] ["data"] (by decide) (by decide)).2
    (copytreeInto [(["outp"], Node.dir), (["outp", "f"], Node.file [5])]
      ["outp"] ["data"]) "copied" rfl
  exact ⟨h.2.2 ["f"] [5] (by decide), h.1⟩

theorem undeploy_fold_frame (nt : Bool) (l : List String) (st : GFS × Bool)
    (q : FPath) (hq : ∀ n ∈ l, q.head? ≠ some n) :
    flookup ((l.foldl (undeployStep nt) st).1) q = flookup st.1 q := by
  induction l generalizing st with
  | nil => rfl
  | cons a t ih =>
    rw [List.foldl_cons]
    rw [ih (undeployStep nt st a) (fun n hn => hq n (List.mem_cons_of_mem a hn))]
    unfold undeployStep
    split_ifs
    · exact remove_existing_frame nt st.1 [a] q
        (isPrefixOf_singleton a q (hq a (List.mem_cons_self a t)))
    · rfl

/-- C8: for every target-directory state, the Undeployer removes at most
the entries whose first path component is a managed top-level name: every
path whose head is not a managed name — the target root (the empty relative
path) included — keeps exactly its previous content; in particular entries
with unmanaged names are never removed or modified and the target directory
itself is never deleted. -/
theorem C8_undeploy_only_managed (nt oe : Bool) (fs : GFS) (q : FPath)
    (hq : ∀ n ∈ MANAGED_TOP_FOLDERS, q.head? ≠ some n) :
    flookup ((undeploy_from_game nt oe fs).1) q = flookup fs q := by
  cases oe with
  | false => rfl
  | true => exact undeploy_fold_frame nt MANAGED_TOP_FOLDERS (fs, false) q hq

/-- Witness for C8: an unmanaged top-level file survives an undeploy run
that removes the deployed managed entry `data`. -/
theorem C8_witness :
    flookup ((undeploy_from_game false true
        [(["data"], Node.dir), (["steam_api.dll"], Node.file [1])]).1)
      ["steam_api.dll"] =
      flookup [(["data"], Node.dir), (["steam_api.dll"], Node.file [1])]
        ["steam_api.dll"] :=
  C8_undeploy_only_managed false true
    [(["data"], Node.dir), (["steam_api.dll"], Node.file [1])]
    ["steam_api.dll"] (by decide)

theorem tryLink_frame (nt s j c : Bool) (fs : GFS) (src dest q : FPath)
    (h : dest.isPrefixOf q = false) (fs2 : GFS) (m : String)
    (heq : _try_create_dir_link nt s j c fs src dest = Except.ok (fs2, m)) :
    flookup fs2 q = flookup fs q := by
  have hqd : ¬ q = dest := by
    intro hc
    rw [hc, isPrefixOf_refl] at h
    cases h
  cases s with
  | true =>
    have h' : (Except.ok (setEntry fs dest (Node.symlink src), "symlink") :
        Except Unit (GFS × String)) = Except.ok (fs2, m) := heq
    injection h' with h''
    have h1 : setEntry fs dest (Node.symlink src) = fs2 := congrArg Prod.fst h''
    rw [← h1, flookup_setEntry, if_neg hqd]
  | false =>
    cases nt with
    | false => exact Except.noConfusion heq
    | true =>
      cases j with
      | true =>
        have h' : (Except.ok (setEntry fs dest (Node.junction src), "junction") :
            Except Unit (GFS × String)) = Except.ok (fs2, m) := heq
        injection h' with h''
        have h1 : setEntry fs dest (Node.junction src) = fs2 :=
          congrArg Prod.fst h''
        rw [← h1, flookup_setEntry, if_neg hqd]
      | false =>
        cases c with
        | false => exact Except.noConfusion heq
        | true =>
          have h' : (Except.ok (copytreeInto fs src dest, "copied") :
              Except Unit (GFS × String)) = Except.ok (fs2, m) := heq
          injection h' with h''
          have h1 : copytreeInto fs src dest = fs2 := congrArg Prod.fst h''
          rw [← h1]
          exact copytreeInto_frame fs src dest q h

theorem deployStep_frame (nt s j c : Bool) (outPath : FPath) (fs : GFS)
    (it : String × OutEntry) (q : FPath) (hq : q.head? ≠ some it.1) :
    flookup ((deployStep nt s j c outPath fs it).1) q = flookup fs q := by
  have hpre : ([it.1] : FPath).isPrefixOf q = false :=
    isPrefixOf_singleton it.1 q hq
  have hq1 : ¬ q = [it.1] := by
    intro hc
    rw [hc, isPrefixOf_refl] at hpre
    cases hpre
  have hrm := remove_existing_frame nt fs [it.1] q hpre
  rcases it with ⟨n, ent⟩
  cases ent with
  | fileE b =>
    show flookup (setEntry (_remove_existing_path nt fs [n]) [n] (Node.file b)) q
        = flookup fs q
    rw [flookup_setEntry, if_neg hq1]
    exact hrm
  | dirE =>
    show flookup ((match _try_create_dir_link nt s j c
        (_remove_existing_path nt fs [n]) (outPath ++ [n]) [n] with
      | Except.ok (fs2, _) => (fs2, true)
      | Except.error _ => (_remove_existing_path nt fs [n], false)).1) q
        = flookup fs q
    cases htry : _try_create_dir_link nt s j c
        (_remove_existing_path nt fs [n]) (outPath ++ [n]) [n] with
    | ok pr =>
      obtain ⟨fs2, m⟩ := pr
      exact (tryLink_frame nt s j c (_remove_existing_path nt fs [n])
        (outPath ++ [n]) [n] q hpre fs2 m htry).trans hrm
    | error u => exact hrm

theorem deploy_fold_frame (nt s j c : Bool) (outPath : FPath)
    (items : List (String × OutEntry)) (st : GFS × Bool) (q : FPath)
    (hq : ∀ it ∈ items, q.head? ≠ some it.1) :
    flookup ((items.foldl
      (fun st it => if st.2 then deployStep nt s j c outPath st.1 it else st)
      st).1) q = flookup st.1 q := by
  induction items generalizing st with
  | nil => rfl
  | cons a t ih =>
    rw [List.foldl_cons]
    rw [ih (if st.2 then deployStep nt s j c outPath st.1 a else st)
      (fun it hit => hq it (List.mem_cons_of_mem a hit))]
    by_cases hflag : st.2 = true
    · rw [if_pos hflag]
      exact deployStep_frame nt s j c outPath st.1 a q
        (hq a (List.mem_cons_self a t))
    · rw [if_neg hflag]

/-- C1 counterexample: a deploy run whose output tree holds a top-level
entry named `foo` — a name outside the Managed Top-Level Name set —
replaces the target's top-level entry `foo`, so a deploy run does touch
target entries with names outside the managed set. -/
theorem C1_counterexample :
    "foo" ∉ MANAGED_TOP_FOLDERS ∧
    flookup ([(["foo"], Node.file [48])] : GFS) ["foo"] =
      some (Node.file [48]) ∧
    flookup ((symlink_to_game false false false false ["outp"]
        [("foo", OutEntry.fileE [49])] [(["foo"], Node.file [48])]).1)
      ["foo"] = some (Node.file [49]) := by
  decide

/-- C1 (amended): the managed-name boundary holds for undeploy runs (see
C8's theorem); a deploy run instead touches only the top-level names of the
Output Tree's entries, which need not lie in the managed set: every path
whose first component is not the name of an output top-level entry is left
exactly as it was by the deploy. -/
theorem C1_deploy_touches_only_output_names (nt s j c : Bool)
    (outPath : FPath) (items : List (String × OutEntry)) (fs : GFS)
    (q : FPath) (hq : ∀ it ∈ items, q.head? ≠ some it.1) :
    flookup ((symlink_to_game nt s j c outPath items fs).1) q =
      flookup fs q :=
  deploy_fold_frame nt s j c outPath items (fs, true) q hq

/-- Witness for C1 (amended): deploying the single output entry `data`
leaves the unrelated top-level entry `other` untouched. -/
theorem C1_witness :
    flookup ((symlink_to_game false false false false ["outp"]
        [("data", OutEntry.fileE [1])] [(["other"], Node.file [7])]).1)
      ["other"] = flookup [(["other"], Node.file [7])] ["other"] :=
  C1_deploy_touches_only_output_names false false false false ["outp"]
    [("data", OutEntry.fileE [1])] [(["other"], Node.file [7])]
    ["other"] (by decide)

end MewgenicsML
